import Mathlib

/-!
A verification development for the boolean resume-retrieval engine
(`final_retriever.py`).  Strings are modelled as `List Char` (ASCII), and
each Python function of the core (normalizer, flattener, query
preprocessor, evaluator) is embedded as an executable Lean function.
Python's `re` operations are modelled by explicit left-to-right,
non-overlapping scans with the same match semantics.
-/

namespace Retriever

/-- ASCII model of the regex class `\s` (Python whitespace). -/
def isWs (c : Char) : Bool :=
  c = ' ' || c = '\t' || c = '\n' || c = '\r' || c = '\x0b' || c = '\x0c'

/-- ASCII model of the regex class `\w`: alphanumeric or underscore. -/
def isWordChar (c : Char) : Bool :=
  c.isAlpha || c.isDigit || c = '_'

/-- Accumulator-style whitespace tokenizer: model of Python `str.split()`
(split on whitespace runs, dropping empty pieces).  `cur` holds the
current in-progress token, reversed. -/
def tokensAux : List Char → List Char → List (List Char)
  | [], cur => if cur = [] then [] else [cur.reverse]
  | c :: rest, cur =>
    if isWs c then
      if cur = [] then tokensAux rest [] else cur.reverse :: tokensAux rest []
    else tokensAux rest (c :: cur)

/-- Model of Python `str.split()`. -/
def tokens (l : List Char) : List (List Char) := tokensAux l []

/-- Model of `re.sub(r'([a-z])([A-Z])', r'\1 \2', text)`: insert a space
between a lowercase letter immediately followed by an uppercase letter,
scanning left to right with non-overlapping matches (after a match the
scan resumes after the uppercase letter). -/
def camelSplit : List Char → List Char
  | a :: b :: rest =>
    if a.isLower && b.isUpper then a :: ' ' :: b :: camelSplit rest
    else a :: camelSplit (b :: rest)
  | l => l

/-- Lookbehind test of `(?<![\w@])`: the previous source character (if
any) is neither a word character nor `@`. -/
def dotnetPrevOk : Option Char → Bool
  | none => true
  | some c => !(isWordChar c || c = '@')

/-- Lookahead test of `(?![\w.])`: the next source character (if any) is
neither a word character nor `.`. -/
def dotnetNextOk : List Char → Bool
  | [] => true
  | c :: _ => !(isWordChar c || c = '.')

/-- Model of `re.sub(r'(?<![\w@])\.net(?![\w.])', ' dotnet ', text)`.
`prev` is the previous character of the source string (lookbehind
context); the scan resumes after each match. -/
def dotnetSub : Option Char → List Char → List Char
  | _, [] => []
  | prev, '.' :: 'n' :: 'e' :: 't' :: rest =>
    if dotnetPrevOk prev && dotnetNextOk rest then
      ' ' :: 'd' :: 'o' :: 't' :: 'n' :: 'e' :: 't' :: ' ' :: dotnetSub (some 't') rest
    else '.' :: dotnetSub (some '.') ('n' :: 'e' :: 't' :: rest)
  | _, c :: rest => c :: dotnetSub (some c) rest

/-- Length consumed by a match of `\S+@\S+` anchored at the current
position, or `0` when there is no match here.  The regex matches iff the
maximal non-whitespace run starting here contains an `@` that is neither
its first nor its last character; greediness makes the match consume the
whole run. -/
def emailMatchLen (l : List Char) : Nat :=
  let run := l.takeWhile (fun c => !isWs c)
  if ((run.drop 1).dropLast).contains '@' then run.length else 0

/-- Length consumed by a match of `https?://\S+|www\.\S+` anchored at the
current position, or `0` when there is no match here.  The trailing
`\S+` greedily extends to the end of the non-whitespace run. -/
def urlMatchLen (l : List Char) : Nat :=
  if "https://".data.isPrefixOf l then
    let r := (l.drop 8).takeWhile (fun c => !isWs c)
    if r.length > 0 then 8 + r.length else 0
  else if "http://".data.isPrefixOf l then
    let r := (l.drop 7).takeWhile (fun c => !isWs c)
    if r.length > 0 then 7 + r.length else 0
  else if "www.".data.isPrefixOf l then
    let r := (l.drop 4).takeWhile (fun c => !isWs c)
    if r.length > 0 then 4 + r.length else 0
  else 0

/-- Generic model of `re.sub(pattern, '', text)` for a pattern whose
anchored match length is computed by `f`: scan left to right; on a match
delete the matched span (tracked by the countdown `k`), otherwise keep
the character and advance by one. -/
def deleteAux (f : List Char → Nat) : Nat → List Char → List Char
  | _ + 1, [] => []
  | k + 1, _ :: rest => deleteAux f k rest
  | 0, [] => []
  | 0, c :: rest =>
    let n := f (c :: rest)
    if 0 < n then deleteAux f (n - 1) rest else c :: deleteAux f 0 rest

/-- Given the text after an opening quote, find the first closing quote:
returns the (nonempty or empty) run of non-quote characters and the text
after the closing quote, or `none` when no closing quote exists. -/
def afterQuote (rest : List Char) : Option (List Char × List Char) :=
  match rest.dropWhile (fun c => c ≠ '"') with
  | '"' :: tail => some (rest.takeWhile (fun c => c ≠ '"'), tail)
  | _ => none

/-- Model of `re.findall(r'"([^"]+)"', text)`: the group-1 captures of
the leftmost non-overlapping matches.  A `""` with empty content is not
a match (the class requires at least one character), so the scan resumes
at the second quote.  The countdown `k` skips characters consumed by a
previous match. -/
def findQuotedAux : Nat → List Char → List (List Char)
  | _ + 1, [] => []
  | k + 1, _ :: rest => findQuotedAux k rest
  | 0, [] => []
  | 0, c :: rest =>
    if c = '"' then
      match afterQuote rest with
      | some (content, _) =>
        if content = [] then findQuotedAux 0 rest
        else content :: findQuotedAux (content.length + 1) rest
      | none => []
    else findQuotedAux 0 rest

/-- The quoted phrases of a text, in order of appearance. -/
def findQuoted (l : List Char) : List (List Char) := findQuotedAux 0 l

/-- Steps 1-4 of `normalize` (everything before tokenization): CamelCase
split, lowercasing, `.net` repair, email and URL removal, quoted-phrase
merging, quote removal and symbol stripping. -/
def preAugment (s : List Char) : List Char :=
  let t1 := camelSplit s
  let t2 := t1.map Char.toLower
  let t3 := dotnetSub none t2
  let t4 := deleteAux emailMatchLen 0 t3
  let t5 := deleteAux urlMatchLen 0 t4
  let qs := findQuoted t5
  let t6 := t5 ++ (qs.map (fun p => ' ' :: p.filter (fun c => c ≠ ' '))).flatten
  let t7 := t6.filter (fun c => c ≠ '"')
  t7.map (fun c => if isWordChar c || isWs c then c else ' ')

/-- The text appended by the bigram loop: for each adjacent pair of
tokens, a space followed by their concatenation. -/
def bigramTail (ws : List (List Char)) : List Char :=
  ((ws.zip ws.tail).map (fun p => ' ' :: (p.1 ++ p.2))).flatten

/-- The text appended by the half-split loop: for each token longer than
8 characters, a space, its first half, a space and its second half. -/
def halfTail (ws : List (List Char)) : List Char :=
  ((ws.filter (fun t => 8 < t.length)).map
    (fun t => (' ' :: t.take (t.length / 2)) ++ (' ' :: t.drop (t.length / 2)))).flatten

/-- The bigram tokens: concatenations of adjacent token pairs, in order. -/
def bigramToks (ws : List (List Char)) : List (List Char) :=
  (ws.zip ws.tail).map (fun p => p.1 ++ p.2)

/-- The half-split fragments: for each token longer than 8 characters,
its first `len / 2` characters and the remainder, as two tokens. -/
def halfToks (ws : List (List Char)) : List (List Char) :=
  (ws.filter (fun t => 8 < t.length)).flatMap
    (fun t => [t.take (t.length / 2), t.drop (t.length / 2)])

/-- Model of `re.sub(r'\s+', ' ', text)`: collapse whitespace runs to a
single space.  The flag records whether the previous character was
whitespace. -/
def collapseWsAux : Bool → List Char → List Char
  | _, [] => []
  | prevWs, c :: rest =>
    if isWs c then
      if prevWs then collapseWsAux true rest else ' ' :: collapseWsAux true rest
    else c :: collapseWsAux false rest

/-- Model of Python `str.strip()`: drop leading and trailing whitespace. -/
def strip (l : List Char) : List Char :=
  ((l.dropWhile isWs).reverse.dropWhile isWs).reverse

/-- The normalizer `normalize` of `final_retriever.py`. -/
def normalize (s : List Char) : List Char :=
  let t := preAugment s
  let ws := tokens t
  strip (collapseWsAux false (t ++ bigramTail ws ++ halfTail ws))

/-- The flattener source structure: an arbitrary document value of maps,
sequences and scalars (strings, numbers, booleans, null). -/
inductive Json where
  | str : List Char → Json
  | num : Int → Json
  | bool : Bool → Json
  | null : Json
  | arr : List Json → Json
  | obj : List (List Char × Json) → Json

mutual

/-- The depth-first string-leaf collection of `flatten_json`'s inner
`recurse`: strings are pushed, dict values and list items are visited in
order, anything else is skipped. -/
def collectParts : Json → List (List Char)
  | .str s => [s]
  | .obj kvs => collectPartsKVs kvs
  | .arr xs => collectPartsList xs
  | _ => []

/-- Leaf collection over a sequence of values. -/
def collectPartsList : List Json → List (List Char)
  | [] => []
  | x :: xs => collectParts x ++ collectPartsList xs

/-- Leaf collection over a map's key-value pairs (values only, in order). -/
def collectPartsKVs : List (List Char × Json) → List (List Char)
  | [] => []
  | kv :: kvs => collectParts kv.2 ++ collectPartsKVs kvs

end

/-- Model of Python `" ".join(parts)`. -/
def joinSpace : List (List Char) → List Char
  | [] => []
  | [x] => x
  | x :: xs => x ++ ' ' :: joinSpace xs

/-- The flattener `flatten_json` of `final_retriever.py`. -/
def flatten_json (j : Json) : List Char := joinSpace (collectParts j)

/-- The boolean expression tree (`boolean.py` node kinds used by the
evaluator): `Sym` is `Symbol`, `And`/`Or` carry their ordered argument
lists, `Not` its single child. -/
inductive Expr where
  | Sym : List Char → Expr
  | Not : Expr → Expr
  | And : List Expr → Expr
  | Or : List Expr → Expr

/-- Position `p` of `text` holds a word character (positions outside the
text count as non-word). -/
def isWordAt (text : List Char) (p : Nat) : Bool :=
  match text.get? p with
  | some c => isWordChar c
  | none => false

/-- The regex `\b` assertion at position `p`: exactly one of the two
adjacent positions holds a word character. -/
def boundaryAt (text : List Char) (p : Nat) : Bool :=
  (decide (0 < p) && isWordAt text (p - 1)) != isWordAt text p

/-- Model of `re.search(r'\b' + re.escape(term) + r'\b', text)`: the
escaped term matches literally at some position with word boundaries on
both sides. -/
def wordBoundarySearch (term text : List Char) : Bool :=
  (List.range (text.length + 1)).any (fun i =>
    boundaryAt text i && term.isPrefixOf (text.drop i) && boundaryAt text (i + term.length))

/-- Model of Python `needle in hay` for strings: unanchored substring
test. -/
def isSubstring (needle hay : List Char) : Bool :=
  (List.range (hay.length + 1)).any (fun i => needle.isPrefixOf (hay.drop i))

mutual

/-- The evaluator `evaluate_expression` of `final_retriever.py`.  A
`Symbol` is lowercased, then: (1) if it starts with `QUOTED_PHRASE_` and
is a key of the phrase table, the lowercased recorded phrase is tested
as a substring; (2) otherwise a word-boundary regex search; (3)
otherwise a substring test.  `AND`/`OR` are `all`/`any` over the
arguments; any other node (in particular `NOT`) falls through to the
final `return False`. -/
def evaluate_expression : Expr → List Char → List (List Char × List Char) → Bool
  | .Sym s, text, qp =>
    let term := s.map Char.toLower
    if "QUOTED_PHRASE_".data.isPrefixOf term && (List.lookup term qp).isSome then
      isSubstring (((List.lookup term qp).getD []).map Char.toLower) text
    else if wordBoundarySearch term text then true
    else isSubstring term text
  | .And args, text, qp => evalAll args text qp
  | .Or args, text, qp => evalAny args text qp
  | .Not _, _, _ => false

/-- Python `all(...)` over the argument generator, left to right. -/
def evalAll : List Expr → List Char → List (List Char × List Char) → Bool
  | [], _, _ => true
  | e :: es, text, qp => evaluate_expression e text qp && evalAll es text qp

/-- Python `any(...)` over the argument generator, left to right. -/
def evalAny : List Expr → List Char → List (List Char × List Char) → Bool
  | [], _, _ => false
  | e :: es, text, qp => evaluate_expression e text qp || evalAny es text qp

end

/-- The mutable parser state of `BooleanSearchParser`: the phrase table
(as an insertion-ordered association list) and the placeholder counter. -/
structure BSP where
  quoted_phrases : List (List Char × List Char)
  placeholder_counter : Nat
deriving Repr

/-- The placeholder token `QUOTED_PHRASE_<n>`. -/
def placeholderName (n : Nat) : List Char :=
  "QUOTED_PHRASE_".data ++ Nat.toDigits 10 n

/-- Model of `re.sub(r'"([^"]+)"', replace_quoted, query)` together with
the table/counter updates of `replace_quoted`: the scan of
`findQuotedAux`, emitting a placeholder for each match (the matched span
is skipped via the countdown `k`) and every other character verbatim.
Returns the substituted query, the recorded entries in insertion order,
and the final counter. -/
def preprocessAux : Nat → Nat → List Char → List Char × List (List Char × List Char) × Nat
  | _ + 1, counter, [] => ([], [], counter)
  | k + 1, counter, _ :: rest => preprocessAux k counter rest
  | 0, counter, [] => ([], [], counter)
  | 0, counter, c :: rest =>
    if c = '"' then
      match afterQuote rest with
      | some (content, _) =>
        if content = [] then
          let r := preprocessAux 0 counter rest
          ('"' :: r.1, r.2)
        else
          let ph := placeholderName counter
          let r := preprocessAux (content.length + 1) (counter + 1) rest
          (ph ++ r.1, (ph, content) :: r.2.1, r.2.2)
      | none => ('"' :: rest, [], counter)
    else
      let r := preprocessAux 0 counter rest
      (c :: r.1, r.2)

/-- The method `preprocess_query`: substitutes quoted phrases starting
from the current counter and extends the current table. -/
def preprocess_query (st : BSP) (q : List Char) : List Char × BSP :=
  let r := preprocessAux 0 st.placeholder_counter q
  (r.1, ⟨st.quoted_phrases ++ r.2.1, r.2.2⟩)

/-- Tokens of the boolean query grammar. -/
inductive QTok where
  | lpar
  | rpar
  | andT
  | orT
  | notT
  | sym : List Char → QTok
deriving Repr, DecidableEq

/-- Classify a word token as an operator or a plain symbol. -/
def classify (w : List Char) : QTok :=
  if w = "AND".data then .andT
  else if w = "OR".data then .orT
  else if w = "NOT".data then .notT
  else .sym w

/-- Modelled from the spec: tokenizer of the third-party boolean
expression parser (`boolean.BooleanAlgebra.parse`), whose code is not
part of `src/`.  Splits on whitespace and parentheses; words `AND`,
`OR`, `NOT` are operators, everything else a symbol (spec section 4.3
step 3).  The countdown `k` skips characters already consumed into the
previous word. -/
def qtokensAux : Nat → List Char → List QTok
  | _ + 1, [] => []
  | k + 1, _ :: rest => qtokensAux k rest
  | 0, [] => []
  | 0, c :: rest =>
    if isWs c then qtokensAux 0 rest
    else if c = '(' then .lpar :: qtokensAux 0 rest
    else if c = ')' then .rpar :: qtokensAux 0 rest
    else
      let w := rest.takeWhile (fun ch => !isWs ch && ch ≠ '(' && ch ≠ ')')
      classify (c :: w) :: qtokensAux w.length rest

/-- Parser modes of the recursive-descent boolean parser: an `OR` level,
an `AND` level, a `NOT` prefix level and an atom level, with the `Rest`
modes folding further operands into an already-parsed left operand. -/
inductive PMode where
  | orM
  | orRest : Expr → PMode
  | andM
  | andRest : Expr → PMode
  | notM
  | atomM

/-- Fold a further `OR` operand into an n-ary `Or`, flattening the way
`boolean.py` builds n-ary argument lists. -/
def orJoin (e e2 : Expr) : Expr :=
  match e with
  | .Or args => .Or (args ++ [e2])
  | _ => .Or [e, e2]

/-- Fold a further `AND` operand into an n-ary `And`. -/
def andJoin (e e2 : Expr) : Expr :=
  match e with
  | .And args => .And (args ++ [e2])
  | _ => .And [e, e2]

/-- Modelled from the spec: the third-party boolean expression parser
(`boolean.BooleanAlgebra.parse` is not part of `src/`).  A fueled
recursive-descent parser over the grammar of spec section 4.3: infix
`AND` (binding tighter) and `OR`, prefix `NOT`, parenthesized grouping,
and any other token a `Term` leaf; syntax errors (unbalanced
parentheses, dangling operator, empty expression) yield descriptive
messages (spec section 4.3 step 4). -/
def parseB : Nat → PMode → List QTok → Except (List Char) (Expr × List QTok)
  | 0, _, _ => .error "recursion limit".data
  | f + 1, .orM, ts => do
    let (e, ts1) ← parseB f .andM ts
    parseB f (.orRest e) ts1
  | f + 1, .orRest e, .orT :: rest => do
    let (e2, ts2) ← parseB f .andM rest
    parseB f (.orRest (orJoin e e2)) ts2
  | _ + 1, .orRest e, ts => .ok (e, ts)
  | f + 1, .andM, ts => do
    let (e, ts1) ← parseB f .notM ts
    parseB f (.andRest e) ts1
  | f + 1, .andRest e, .andT :: rest => do
    let (e2, ts2) ← parseB f .notM rest
    parseB f (.andRest (andJoin e e2)) ts2
  | _ + 1, .andRest e, ts => .ok (e, ts)
  | f + 1, .notM, .notT :: rest => do
    let (e, ts1) ← parseB f .notM rest
    .ok (.Not e, ts1)
  | f + 1, .notM, ts => parseB f .atomM ts
  | _ + 1, .atomM, [] => .error "dangling operator".data
  | _ + 1, .atomM, .sym s :: rest => .ok (.Sym s, rest)
  | f + 1, .atomM, .lpar :: rest => do
    let (e, ts1) ← parseB f .orM rest
    match ts1 with
    | .rpar :: ts2 => .ok (e, ts2)
    | _ => .error "unbalanced parentheses".data
  | _ + 1, .atomM, .rpar :: _ => .error "unbalanced parentheses".data
  | _ + 1, .atomM, .andT :: _ => .error "dangling operator".data
  | _ + 1, .atomM, .orT :: _ => .error "dangling operator".data
  | _ + 1, .atomM, .notT :: _ => .error "dangling operator".data

/-- Modelled from the spec: entry point of the third-party boolean
parser.  An empty token stream is an empty expression; a parse that
leaves tokens unconsumed is a syntax error. -/
def algebraParse (q : List Char) : Except (List Char) Expr :=
  let ts := qtokensAux 0 q
  if ts = [] then .error "empty expression".data
  else
    match parseB (5 * ts.length + 10) .orM ts with
    | .ok (e, []) => .ok e
    | .ok (_, _ :: _) => .error "unbalanced parentheses".data
    | .error e => .error e

/-- The method `parse_query`: reset the phrase table and counter,
preprocess the quoted phrases, parse the substituted string, and wrap
any failure in `Invalid Boolean query: <e>`. -/
def parse_query (_st : BSP) (q : List Char) : Except (List Char) Expr × BSP :=
  let st0 : BSP := ⟨[], 0⟩
  let p := preprocess_query st0 q
  match algebraParse p.1 with
  | .ok t => (.ok t, p.2)
  | .error e => (.error ("Invalid Boolean query: ".data ++ e), p.2)

/-- The query dispatch of `main`: when the raw query contains `AND`,
`OR`, `NOT` or a quote character (as substrings), the full parser runs
on a fresh `BooleanSearchParser`; otherwise a single `Symbol` of the
lowercased query is built directly. -/
def mainParse (q : List Char) : Except (List Char) Expr :=
  if isSubstring "AND".data q || isSubstring "OR".data q || isSubstring "NOT".data q
      || isSubstring "\"".data q then
    (parse_query ⟨[], 0⟩ q).1
  else
    .ok (.Sym (q.map Char.toLower))

/-- Helper equations: leaf collection over key-value pairs is the
depth-first concatenation over the values. -/
theorem collectPartsKVs_eq (kvs : List (List Char × Json)) :
    collectPartsKVs kvs = (kvs.map Prod.snd).flatMap collectParts := by
  induction kvs with
  | nil => rfl
  | cons kv kvs ih => simp [collectPartsKVs, ih]

/-- Helper equations: leaf collection over a sequence is the depth-first
concatenation over the items. -/
theorem collectPartsList_eq (xs : List Json) :
    collectPartsList xs = xs.flatMap collectParts := by
  induction xs with
  | nil => rfl
  | cons x xs ih => simp [collectPartsList, ih]

/-- A list is a `isPrefixOf`-prefix of itself followed by anything. -/
theorem isPrefixOf_append (l m : List Char) : l.isPrefixOf (l ++ m) = true :=
  List.isPrefixOf_iff_prefix.mpr (List.prefix_append l m)

end Retriever

namespace Retriever

/-- C1: the spec requires that a placeholder `Term` recorded in the
phrase table be resolved via the phrase-substring tier, so the query
`"Machine Learning"` must match a document containing `machine
learning`.  The code lowercases the term before testing
`startswith("QUOTED_PHRASE_")` and before the table lookup, so the
placeholder tier can never fire: parsing `"Machine Learning"` yields the
term `QUOTED_PHRASE_0` with phrase table entry `QUOTED_PHRASE_0 ↦
Machine Learning`, the lowercased phrase is a substring of the document
text, and yet the evaluator returns `false`. -/
theorem claim_C1_bug :
    (parse_query ⟨[], 0⟩ "\"Machine Learning\"".data).1 = .ok (.Sym (placeholderName 0))
    ∧ (parse_query ⟨[], 0⟩ "\"Machine Learning\"".data).2.quoted_phrases
        = [(placeholderName 0, "Machine Learning".data)]
    ∧ isSubstring ("Machine Learning".data.map Char.toLower)
        "i know machine learning well".data = true
    ∧ evaluate_expression (.Sym (placeholderName 0)) "i know machine learning well".data
        [(placeholderName 0, "Machine Learning".data)] = false :=
  ⟨rfl, rfl, by decide, by decide⟩

/-- C2: the spec requires `Not(child)` to evaluate to the negation of
the child's verdict.  The evaluator has no `NOT` branch: every `Not`
node falls through to `return False`, so for the child `java` (false on
the text `python only`) the code returns `false` where the spec requires
`true`. -/
theorem claim_C2_bug :
    evaluate_expression (.Sym "java".data) "python only".data [] = false
    ∧ evaluate_expression (.Not (.Sym "java".data)) "python only".data [] = false
    ∧ ∀ (e : Expr) (text : List Char) (qp : List (List Char × List Char)),
        evaluate_expression (.Not e) text qp = false :=
  ⟨by decide, rfl, fun _ _ _ => rfl⟩

/-- C3: when the raw query contains none of `AND`, `OR`, `NOT` and no
quote character, the dispatch in `main` constructs the single `Symbol`
of the lowercased raw query. -/
theorem claim_C3 (q : List Char)
    (h1 : isSubstring "AND".data q = false) (h2 : isSubstring "OR".data q = false)
    (h3 : isSubstring "NOT".data q = false) (h4 : isSubstring "\"".data q = false) :
    mainParse q = .ok (.Sym (q.map Char.toLower)) := by
  simp [mainParse, h1, h2, h3, h4]

/-- Witness for C3 at the concrete query `Python`. -/
theorem claim_C3_witness :
    mainParse "Python".data = .ok (.Sym ("Python".data.map Char.toLower)) :=
  claim_C3 "Python".data (by decide) (by decide) (by decide) (by decide)

/-- C4: a non-placeholder `Term` evaluates to the word-boundary tier
or-else the substring tier, and on the text `i know java programming`
the term `program` fails the word-boundary tier, passes the substring
tier, and evaluates to `true`. -/
theorem claim_C4 :
    (∀ (s text : List Char) (qp : List (List Char × List Char)),
        ("QUOTED_PHRASE_".data.isPrefixOf (s.map Char.toLower)
            && (List.lookup (s.map Char.toLower) qp).isSome) = false →
        evaluate_expression (.Sym s) text qp
          = (wordBoundarySearch (s.map Char.toLower) text
              || isSubstring (s.map Char.toLower) text))
    ∧ wordBoundarySearch "program".data "i know java programming".data = false
    ∧ isSubstring "program".data "i know java programming".data = true
    ∧ evaluate_expression (.Sym "program".data) "i know java programming".data [] = true := by
  refine ⟨?_, by decide, by decide, by decide⟩
  intro s text qp h
  simp only [evaluate_expression, h]
  cases hwb : wordBoundarySearch (s.map Char.toLower) text <;> simp [hwb]

/-- Witness for C4's general tier characterization at the concrete
term `program`. -/
theorem claim_C4_witness :
    evaluate_expression (.Sym "program".data) "i know java programming".data []
      = (wordBoundarySearch ("program".data.map Char.toLower) "i know java programming".data
          || isSubstring ("program".data.map Char.toLower) "i know java programming".data) :=
  claim_C4.1 "program".data "i know java programming".data [] (by decide)

/-- C5: normalizing `HuggingFace` yields text containing both
`hugging face` (CamelCase split plus case fold) and `huggingface`
(bigram augmentation) as substrings. -/
theorem claim_C5 :
    isSubstring "hugging face".data (normalize "HuggingFace".data) = true
    ∧ isSubstring "huggingface".data (normalize "HuggingFace".data) = true := by
  decide

/-- C8: every parse failure is surfaced as a descriptive error carrying
the `Invalid Boolean query: ` wrapper around the syntax-error message
(and, the result being an `Except`, no partial tree accompanies it);
unbalanced parentheses, a dangling operator and an empty query fail
with the corresponding messages, while a well-formed query returns a
tree. -/
theorem claim_C8 :
    (∀ (st : BSP) (q e : List Char), (parse_query st q).1 = .error e →
        "Invalid Boolean query: ".data.isPrefixOf e = true)
    ∧ (parse_query ⟨[], 0⟩ "(python AND java".data).1
        = .error "Invalid Boolean query: unbalanced parentheses".data
    ∧ (parse_query ⟨[], 0⟩ "python AND".data).1
        = .error "Invalid Boolean query: dangling operator".data
    ∧ (parse_query ⟨[], 0⟩ "".data).1
        = .error "Invalid Boolean query: empty expression".data
    ∧ ∃ t, (parse_query ⟨[], 0⟩ "python AND (java OR ruby)".data).1 = .ok t := by
  refine ⟨?_, rfl, rfl, rfl, ⟨_, rfl⟩⟩
  intro st q e h
  simp only [parse_query] at h
  cases halg : algebraParse (preprocess_query ⟨[], 0⟩ q).1 with
  | ok t => rw [halg] at h; simp at h
  | error msg =>
    rw [halg] at h
    simp only [Except.error.injEq] at h
    rw [← h]
    exact isPrefixOf_append _ _

/-- Witness for C8's error-wrapping property at the concrete empty
query. -/
theorem claim_C8_witness :
    "Invalid Boolean query: ".data.isPrefixOf
      "Invalid Boolean query: empty expression".data = true :=
  claim_C8.1 ⟨[], 0⟩ "".data _ rfl

/-- C9: the flattener collects exactly the string leaves in depth-first,
original order (dict values in order, list items in order), skips
non-string scalars, and space-joins the result; in particular
`{"a": "x", "b": ["y", "z"]}` flattens to `x y z`, also in the presence
of numeric, boolean and null leaves. -/
theorem claim_C9 :
    (∀ s, collectParts (.str s) = [s])
    ∧ (∀ n, collectParts (.num n) = [])
    ∧ (∀ b, collectParts (.bool b) = [])
    ∧ collectParts .null = []
    ∧ (∀ kvs, collectParts (.obj kvs) = (kvs.map Prod.snd).flatMap collectParts)
    ∧ (∀ xs, collectParts (.arr xs) = xs.flatMap collectParts)
    ∧ flatten_json (.obj [("a".data, .str "x".data), ("b".data, .arr [.str "y".data, .str "z".data])])
        = "x y z".data
    ∧ flatten_json (.obj [("a".data, .str "x".data), ("n".data, .num 7), ("f".data, .bool false),
        ("u".data, .null), ("b".data, .arr [.str "y".data, .bool true, .str "z".data])])
        = "x y z".data :=
  ⟨fun _ => rfl, fun _ => rfl, fun _ => rfl, rfl,
   fun kvs => collectPartsKVs_eq kvs, fun xs => collectPartsList_eq xs, rfl, rfl⟩

/-- Tokenizing across an appended space-led block tokenizes each side. -/
theorem tokensAux_append_space (a : List Char) : ∀ (b cur : List Char),
    tokensAux (a ++ ' ' :: b) cur = tokensAux a cur ++ tokensAux b [] := by
  induction a with
  | nil =>
    intro b cur
    by_cases hcur : cur = [] <;> simp [tokensAux, isWs, hcur]
  | cons c a ih =>
    intro b cur
    simp only [List.cons_append, tokensAux]
    by_cases hws : isWs c = true
    · by_cases hcur : cur = [] <;> simp [hws, hcur, ih]
    · simp [hws, ih]

/-- A whitespace-free run forms a single token together with the pending
accumulator. -/
theorem tokensAux_no_ws : ∀ (w cur : List Char), (∀ c ∈ w, isWs c = false) →
    tokensAux w cur = if cur = [] ∧ w = [] then [] else [cur.reverse ++ w] := by
  intro w
  induction w with
  | nil =>
    intro cur _
    by_cases hcur : cur = [] <;> simp [tokensAux, hcur]
  | cons c w ih =>
    intro cur h
    have hc : isWs c = false := h c (by simp)
    have hw : ∀ x ∈ w, isWs x = false := fun x hx => h x (by simp [hx])
    simp [tokensAux, hc, ih (c :: cur) hw]

/-- Every token produced by the tokenizer is nonempty and contains no
whitespace. -/
theorem tokensAux_mem : ∀ (l cur : List Char), (∀ c ∈ cur, isWs c = false) →
    ∀ w ∈ tokensAux l cur, w ≠ [] ∧ ∀ c ∈ w, isWs c = false := by
  intro l
  induction l with
  | nil =>
    intro cur hcur w hw
    by_cases h : cur = []
    · simp [tokensAux, h] at hw
    · simp only [tokensAux, if_neg h, List.mem_singleton] at hw
      subst hw
      exact ⟨by simpa using h, fun c hc => hcur c (by simpa using hc)⟩
  | cons c l ih =>
    intro cur hcur w hw
    simp only [tokensAux] at hw
    by_cases hws : isWs c = true
    · rw [if_pos hws] at hw
      by_cases h : cur = []
      · rw [if_pos h] at hw
        exact ih [] (by simp) w hw
      · rw [if_neg h] at hw
        rcases List.mem_cons.mp hw with h1 | h1
        · subst h1
          exact ⟨by simpa using h, fun c hc => hcur c (by simpa using hc)⟩
        · exact ih [] (by simp) w h1
    · rw [if_neg hws] at hw
      refine ih (c :: cur) ?_ w hw
      intro x hx
      rcases List.mem_cons.mp hx with rfl | hx
      · simpa using hws
      · exact hcur x hx

/-- An all-whitespace input yields no tokens. -/
theorem tokensAux_all_ws_nil : ∀ (w : List Char), (∀ c ∈ w, isWs c = true) →
    tokensAux w [] = [] := by
  intro w
  induction w with
  | nil => intro _; rfl
  | cons c w ih =>
    intro h
    simp only [tokensAux, if_pos (h c (by simp)), if_pos rfl]
    exact ih (fun x hx => h x (by simp [hx]))

/-- Appending trailing whitespace does not change the tokens. -/
theorem tokensAux_append_ws : ∀ (l w cur : List Char), (∀ c ∈ w, isWs c = true) →
    tokensAux (l ++ w) cur = tokensAux l cur := by
  intro l
  induction l with
  | nil =>
    intro w cur hw
    cases w with
    | nil => simp
    | cons c w =>
      have hc := hw c (by simp)
      have hrest := tokensAux_all_ws_nil w (fun x hx => hw x (by simp [hx]))
      by_cases hcur : cur = [] <;> simp [tokensAux, hc, hcur, hrest]
  | cons c l ih =>
    intro w cur hw
    simp only [List.cons_append, tokensAux]
    by_cases hws : isWs c = true
    · by_cases hcur : cur = [] <;> simp [hws, hcur, ih w _ hw]
    · simp [hws, ih w _ hw]

/-- Dropping leading whitespace does not change the tokens. -/
theorem tokensAux_dropWhile_ws (l : List Char) :
    tokensAux (l.dropWhile isWs) [] = tokensAux l [] := by
  induction l with
  | nil => rfl
  | cons c l ih =>
    by_cases hws : isWs c = true
    · simp [List.dropWhile_cons, hws, tokensAux, ih]
    · simp [List.dropWhile_cons, hws]

/-- Stripping both ends does not change the tokens. -/
theorem tokens_strip (l : List Char) : tokens (strip l) = tokens l := by
  unfold tokens strip
  rw [← tokensAux_dropWhile_ws l]
  set l1 := l.dropWhile isWs with hl1
  have hsplit : l1 = (l1.reverse.dropWhile isWs).reverse ++ (l1.reverse.takeWhile isWs).reverse := by
    have h := List.takeWhile_append_dropWhile (p := isWs) (l := l1.reverse)
    calc l1 = l1.reverse.reverse := by simp
    _ = (l1.reverse.takeWhile isWs ++ l1.reverse.dropWhile isWs).reverse := by rw [h]
    _ = (l1.reverse.dropWhile isWs).reverse ++ (l1.reverse.takeWhile isWs).reverse := by
        rw [List.reverse_append]
  conv_rhs => rw [hsplit]
  rw [tokensAux_append_ws]
  intro c hc
  exact List.mem_takeWhile_imp (by simpa using hc)

/-- Unfolding: a whitespace head flushes the accumulator. -/
theorem tokensAux_cons_ws (c : Char) (l cur : List Char) (h : isWs c = true) :
    tokensAux (c :: l) cur
      = if cur = [] then tokensAux l [] else cur.reverse :: tokensAux l [] := by
  simp [tokensAux, h]

/-- Unfolding: a non-whitespace head extends the accumulator. -/
theorem tokensAux_cons_not_ws (c : Char) (l cur : List Char) (h : isWs c = false) :
    tokensAux (c :: l) cur = tokensAux l (c :: cur) := by
  simp [tokensAux, h]

/-- Unfolding: whitespace after whitespace is dropped. -/
theorem collapseWsAux_ws_true (c : Char) (l : List Char) (h : isWs c = true) :
    collapseWsAux true (c :: l) = collapseWsAux true l := by
  simp [collapseWsAux, h]

/-- Unfolding: whitespace after non-whitespace becomes a single space. -/
theorem collapseWsAux_ws_false (c : Char) (l : List Char) (h : isWs c = true) :
    collapseWsAux false (c :: l) = ' ' :: collapseWsAux true l := by
  simp [collapseWsAux, h]

/-- Unfolding: a non-whitespace character is kept. -/
theorem collapseWsAux_not_ws (b : Bool) (c : Char) (l : List Char) (h : isWs c = false) :
    collapseWsAux b (c :: l) = c :: collapseWsAux false l := by
  simp [collapseWsAux, h]

/-- Collapsing whitespace runs does not change the tokens (whenever the
previous-was-whitespace flag is set, the accumulator is empty). -/
theorem tokensAux_collapse : ∀ (l : List Char) (b : Bool) (cur : List Char),
    (b = true → cur = []) → tokensAux (collapseWsAux b l) cur = tokensAux l cur := by
  intro l
  induction l with
  | nil => intro b cur _; rfl
  | cons c l ih =>
    intro b cur hb
    by_cases hws : isWs c = true
    · cases b with
      | true =>
        obtain rfl := hb rfl
        rw [collapseWsAux_ws_true c l hws, tokensAux_cons_ws c l [] hws, if_pos rfl]
        exact ih true [] (fun _ => rfl)
      | false =>
        rw [collapseWsAux_ws_false c l hws,
            tokensAux_cons_ws ' ' (collapseWsAux true l) cur rfl,
            tokensAux_cons_ws c l cur hws]
        by_cases hcur : cur = []
        · rw [if_pos hcur, if_pos hcur, ih true [] (fun _ => rfl)]
        · rw [if_neg hcur, if_neg hcur, ih true [] (fun _ => rfl)]
    · have hws2 : isWs c = false := by simpa using hws
      rw [collapseWsAux_not_ws b c l hws2, tokensAux_cons_not_ws c (collapseWsAux false l) cur hws2,
          tokensAux_cons_not_ws c l cur hws2]
      exact ih false (c :: cur) (by simp)

/-- Collapsing whitespace runs does not change the tokens. -/
theorem tokens_collapse (l : List Char) : tokens (collapseWsAux false l) = tokens l :=
  tokensAux_collapse l false [] (by simp)

/-- Appending a flattened list of space-led nonempty whitespace-free
segments appends exactly those segments to the token list. -/
theorem tokens_append_segs : ∀ (segs : List (List Char)) (t : List Char),
    (∀ w ∈ segs, w ≠ [] ∧ ∀ c ∈ w, isWs c = false) →
    tokens (t ++ (segs.map (fun w => ' ' :: w)).flatten) = tokens t ++ segs := by
  intro segs
  induction segs with
  | nil => intro t _; simp
  | cons w segs ih =>
    intro t h
    have hw := h w (by simp)
    have hs : ∀ x ∈ segs, x ≠ [] ∧ ∀ c ∈ x, isWs c = false :=
      fun x hx => h x (by simp [hx])
    simp only [List.map_cons, List.flatten_cons]
    rw [show t ++ ((' ' :: w) ++ (segs.map (fun w => ' ' :: w)).flatten)
        = t ++ ' ' :: (w ++ (segs.map (fun w => ' ' :: w)).flatten) by simp]
    unfold tokens
    rw [tokensAux_append_space]
    have hrec := ih w hs
    unfold tokens at hrec
    rw [hrec, tokensAux_no_ws w [] hw.2]
    simp [hw.1]

/-- The bigram tail is the flattening of its space-led tokens. -/
theorem bigramTail_eq (ws : List (List Char)) :
    bigramTail ws = ((bigramToks ws).map (fun w => ' ' :: w)).flatten := by
  rw [bigramToks, List.map_map]
  rfl

/-- The half-split tail is the flattening of its space-led fragments. -/
theorem halfTail_eq (ws : List (List Char)) :
    halfTail ws = ((halfToks ws).map (fun w => ' ' :: w)).flatten := by
  simp only [halfTail, halfToks]
  induction ws.filter (fun t => 8 < t.length) with
  | nil => rfl
  | cons x l ih =>
    simp only [List.map_cons, List.flatten_cons, List.flatMap_cons, List.map_append,
      List.flatten_append, ih]
    simp [List.append_assoc]

/-- The tokens appended by augmentation are nonempty and whitespace-free. -/
theorem augToks_props (t : List Char) :
    ∀ w ∈ bigramToks (tokens t) ++ halfToks (tokens t),
      w ≠ [] ∧ ∀ c ∈ w, isWs c = false := by
  intro w hw
  have hmem : ∀ x ∈ tokens t, x ≠ [] ∧ ∀ c ∈ x, isWs c = false :=
    fun x hx => tokensAux_mem t [] (by simp) x hx
  rcases List.mem_append.mp hw with h | h
  · simp only [bigramToks, List.mem_map] at h
    obtain ⟨p, hp, rfl⟩ := h
    obtain ⟨hne1, hws1⟩ := hmem _ (List.of_mem_zip hp).1
    obtain ⟨_, hws2⟩ := hmem _ (List.mem_of_mem_tail (List.of_mem_zip hp).2)
    refine ⟨by simp [hne1], fun c hc => ?_⟩
    rcases List.mem_append.mp hc with hc | hc
    exacts [hws1 c hc, hws2 c hc]
  · simp only [halfToks, List.mem_flatMap] at h
    obtain ⟨x, hx, hw2⟩ := h
    have hxf := List.mem_filter.mp hx
    have hlen : 8 < x.length := by simpa using hxf.2
    obtain ⟨_, hws⟩ := hmem _ hxf.1
    have htake : (x.take (x.length / 2)).length = x.length / 2 := by
      rw [List.length_take]; omega
    have hdrop : (x.drop (x.length / 2)).length = x.length - x.length / 2 := by
      rw [List.length_drop]
    simp only [List.mem_cons, List.mem_singleton] at hw2
    rcases hw2 with rfl | rfl | h0
    · refine ⟨fun hnil => ?_, fun c hc => hws c (List.take_subset _ _ hc)⟩
      rw [hnil] at htake
      simp at htake
      omega
    · refine ⟨fun hnil => ?_, fun c hc => hws c (List.drop_subset _ _ hc)⟩
      rw [hnil] at hdrop
      simp at hdrop
      omega
    · cases h0

/-- C6: the half-split loop appends, for every token of the
pre-augmentation token sequence longer than 8 characters, exactly two
space-separated fragments, the first `len / 2` characters and the
remainder; the fragments have those lengths and concatenate back to the
original token. -/
theorem claim_C6 :
    (∀ ws, halfTail ws = ((halfToks ws).map (fun w => ' ' :: w)).flatten)
    ∧ ∀ (s t : List Char), t ∈ tokens (preAugment s) → 8 < t.length →
        (t.take (t.length / 2)).length = t.length / 2
        ∧ (t.drop (t.length / 2)).length = t.length - t.length / 2
        ∧ t.take (t.length / 2) ++ t.drop (t.length / 2) = t := by
  refine ⟨halfTail_eq, ?_⟩
  intro s t _ hlen
  refine ⟨?_, List.length_drop _ _, List.take_append_drop _ _⟩
  rw [List.length_take]
  omega

/-- Witness for C6 at the token `internationalization` (length 20). -/
theorem claim_C6_witness :
    "internationalization".data.take ("internationalization".data.length / 2)
      ++ "internationalization".data.drop ("internationalization".data.length / 2)
      = "internationalization".data :=
  (claim_C6.2 "internationalization".data "internationalization".data
    (by decide) (by decide)).2.2

/-- C10: the token sequence of the normalizer's output is exactly the
pre-augmentation token sequence, followed by the bigram tokens, followed
by the half-split fragments — augmentation only appends. -/
theorem claim_C10 (s : List Char) :
    tokens (normalize s)
      = tokens (preAugment s) ++ bigramToks (tokens (preAugment s))
          ++ halfToks (tokens (preAugment s)) := by
  have h1 : normalize s
      = strip (collapseWsAux false (preAugment s
          ++ (bigramTail (tokens (preAugment s)) ++ halfTail (tokens (preAugment s))))) := by
    simp only [normalize]
    rw [List.append_assoc]
  rw [h1, tokens_strip, tokens_collapse]
  rw [show bigramTail (tokens (preAugment s)) ++ halfTail (tokens (preAugment s))
      = ((bigramToks (tokens (preAugment s)) ++ halfToks (tokens (preAugment s))).map
          (fun w => ' ' :: w)).flatten by
    rw [List.map_append, List.flatten_append, bigramTail_eq, halfTail_eq]]
  rw [tokens_append_segs _ _ (augToks_props _), List.append_assoc]

/-- Helper for C7: the phrase table built by the preprocessing scan is
exactly the quoted phrases of the query paired with the placeholders of
the consecutive counters, and the final counter advances by their
number. -/
theorem preprocessAux_spec : ∀ (l : List Char) (k counter : Nat),
    (preprocessAux k counter l).2.1
        = (List.enumFrom counter (findQuotedAux k l)).map
            (fun ip => (placeholderName ip.1, ip.2))
    ∧ (preprocessAux k counter l).2.2 = counter + (findQuotedAux k l).length := by
  intro l
  induction l with
  | nil => intro k counter; cases k <;> simp [preprocessAux, findQuotedAux]
  | cons c rest ih =>
    intro k counter
    cases k with
    | succ k => simpa [preprocessAux, findQuotedAux] using ih k counter
    | zero =>
      by_cases hc : c = '"'
      · subst hc
        cases hq : afterQuote rest with
        | none => simp [preprocessAux, findQuotedAux, hq]
        | some p =>
          obtain ⟨content, tail⟩ := p
          by_cases hcont : content = []
          · simpa [preprocessAux, findQuotedAux, hq, hcont] using ih 0 counter
          · have hrec := ih (content.length + 1) (counter + 1)
            refine ⟨?_, ?_⟩
            · simp [preprocessAux, findQuotedAux, hq, hcont, hrec.1, List.enumFrom_cons]
            · simp [preprocessAux, findQuotedAux, hq, hcont, hrec.2]
              omega
      · simp only [preprocessAux, findQuotedAux, if_neg hc]
        exact ih 0 counter

/-- C7: each parse call resets the phrase table and counter (its
resulting state is independent of the incoming state), and the table it
builds is exactly the quoted phrases of the query keyed by
`QUOTED_PHRASE_<n>` for `n = 0, 1, 2, ...` in order of appearance, the
final counter being their number. -/
theorem claim_C7 (st : BSP) (q : List Char) :
    (parse_query st q).2 = (parse_query ⟨[], 0⟩ q).2
    ∧ (parse_query st q).2.quoted_phrases
        = (List.enumFrom 0 (findQuoted q)).map (fun ip => (placeholderName ip.1, ip.2))
    ∧ (parse_query st q).2.placeholder_counter = (findQuoted q).length := by
  have hsnd : (parse_query st q).2 = (preprocess_query ⟨[], 0⟩ q).2 := by
    simp only [parse_query]
    cases algebraParse (preprocess_query ⟨[], 0⟩ q).1 <;> rfl
  refine ⟨rfl, ?_, ?_⟩
  · rw [hsnd]
    simp only [preprocess_query, List.nil_append]
    exact (preprocessAux_spec q 0 0).1
  · rw [hsnd]
    simp only [preprocess_query]
    rw [(preprocessAux_spec q 0 0).2]
    simp [findQuoted]

end Retriever
